import Mathlib

/-!
# Verification of a Python Huffman codec (`huffman.py`)

Shallow embedding of the `Node` / `HuffmanTree` classes of `huffman.py`.

* Python symbols (1-character strings) are modelled as `Char`; bit strings
  (strings over `'0'` / `'1'`) are modelled as `List Char`, so that invalid
  bit characters such as `'2'` are representable.
* The `Node` objects created by the program always have either a symbol and
  no children (leaves, `Node(freq, char)`) or two children and no symbol
  (internal nodes, `Node(freq, left=l, right=r)`); the embedding uses a tagged
  variant with exactly these two shapes, and `Node.left` / `Node.right` /
  `Node.char` return `Option`s mirroring the Python attributes that are `None`
  on the other shape.
* Python `dict`s are modelled as insertion-ordered association lists;
  `dictSet` mirrors `d[k] = v` (update in place if the key exists, else append).
* The mutable `HuffmanTree` object is modelled by explicit state passing:
  stateful methods return the new state.  Exceptions are modelled with
  `Except PyError`; the distinct `raise` sites of the source are mapped to
  the distinct `PyError` constructors.
* The build loop uses Python's `heapq`; `siftdownLoop` / `siftupLoop` /
  `heapify` / `heappush` / `heappop` below are direct functional
  transcriptions of CPython's pure-Python `_siftdown` / `_siftup` /
  `heapify` / `heappush` / `heappop`, with `Node.__lt__` comparing `freq`.
-/

/-- Error kinds of the program, one per `raise` site family of `huffman.py`:
`InvalidInput` (empty frequency dict / empty text / bad bit), `UnknownSymbol`
(encode of a symbol missing from the code table), `UninitializedTree`
(decode before a tree was built), and `AttributeError` for the Python crash
`None.is_leaf()` that would occur if the decoder cursor sat on a leaf while
the root is internal (unreachable through the public operations). -/
inductive PyError where
  | InvalidInput : PyError
  | UnknownSymbol : PyError
  | UninitializedTree : PyError
  | AttributeError : PyError
deriving Repr, DecidableEq

/-- `class Node`: the program only ever constructs `Node(freq, char)`
(a leaf: `left` and `right` are `None`) and `Node(freq, left=l, right=r)`
(an internal node: `char` is `None`), so the embedding is a tagged variant
with these two shapes. -/
inductive Node where
  | leaf (freq : Nat) (char : Char) : Node
  | internal (freq : Nat) (left : Node) (right : Node) : Node
deriving Repr, DecidableEq

instance : Inhabited Node := ⟨Node.leaf 0 'a'⟩

/-- The `freq` attribute. -/
def Node.freq : Node → Nat
  | .leaf f _ => f
  | .internal f _ _ => f

/-- The `char` attribute (`None` on internal nodes). -/
def Node.char : Node → Option Char
  | .leaf _ c => some c
  | .internal _ _ _ => none

/-- The `left` attribute (`None` on leaves). -/
def Node.left : Node → Option Node
  | .leaf _ _ => none
  | .internal _ l _ => some l

/-- The `right` attribute (`None` on leaves). -/
def Node.right : Node → Option Node
  | .leaf _ _ => none
  | .internal _ _ r => some r

/-- `Node.is_leaf`: `self.left is None and self.right is None`. -/
def Node.is_leaf : Node → Bool
  | .leaf _ _ => true
  | .internal _ _ _ => false

/-- CPython `heapq._siftdown`'s while loop: starting from `pos`, walk up
towards `startpos`, moving each parent that is greater than `newitem` down
one slot; returns the heap so far and the final hole position (the final
`heap[pos] = newitem` write of `_siftdown` is performed by `siftdown`).
Comparison is `Node.__lt__`, i.e. `freq <`. -/
def siftdownLoop (newitem : Node) (startpos : Nat) (heap : List Node) (pos : Nat) :
    List Node × Nat :=
  if h : startpos < pos then
    if newitem.freq < (heap.getD ((pos - 1) / 2) default).freq then
      siftdownLoop newitem startpos
        (heap.set pos (heap.getD ((pos - 1) / 2) default)) ((pos - 1) / 2)
    else (heap, pos)
  else (heap, pos)
termination_by pos
decreasing_by
  have := Nat.div_le_self (pos - 1) 2
  omega

/-- CPython `heapq._siftdown(heap, startpos, pos)`. -/
def siftdown (heap : List Node) (startpos pos : Nat) : List Node :=
  (siftdownLoop (heap.getD pos default) startpos heap pos).1.set
    (siftdownLoop (heap.getD pos default) startpos heap pos).2
    (heap.getD pos default)

/-- CPython `heapq._siftup`'s while loop: bubble the hole at `pos` down to a
leaf of the heap, always moving the smaller child up (`childpos` becomes
`rightpos` when `rightpos < endpos and not heap[childpos] < heap[rightpos]`);
returns the heap so far and the final hole position. -/
def siftupLoop (endpos : Nat) (heap : List Node) (pos : Nat) : List Node × Nat :=
  if h : 2 * pos + 1 < endpos then
    if h2 : 2 * pos + 2 < endpos ∧
        ¬ (heap.getD (2 * pos + 1) default).freq < (heap.getD (2 * pos + 2) default).freq then
      siftupLoop endpos (heap.set pos (heap.getD (2 * pos + 2) default)) (2 * pos + 2)
    else
      siftupLoop endpos (heap.set pos (heap.getD (2 * pos + 1) default)) (2 * pos + 1)
  else (heap, pos)
termination_by endpos - pos
decreasing_by
  · omega
  · omega

/-- CPython `heapq._siftup(heap, pos)`: save `newitem = heap[pos]`, bubble the
hole down to a leaf, place `newitem` there and sift it down towards `pos`. -/
def siftup (heap : List Node) (pos : Nat) : List Node :=
  siftdown
    ((siftupLoop heap.length heap pos).1.set
      (siftupLoop heap.length heap pos).2 (heap.getD pos default))
    pos
    (siftupLoop heap.length heap pos).2

/-- CPython `heapq.heapify`'s loop `for i in reversed(range(n//2)): _siftup(x, i)`:
`heapifyFrom heap k` applies `siftup` at positions `k-1, k-2, …, 0`. -/
def heapifyFrom (heap : List Node) : Nat → List Node
  | 0 => heap
  | i + 1 => heapifyFrom (siftup heap i) i

/-- CPython `heapq.heapify`. -/
def heapify (heap : List Node) : List Node :=
  heapifyFrom heap (heap.length / 2)

/-- CPython `heapq.heappush`. -/
def heappush (heap : List Node) (item : Node) : List Node :=
  siftdown (heap ++ [item]) 0 ((heap ++ [item]).length - 1)

/-- CPython `heapq.heappop`: pop the last element; if the heap is now empty it
is the result, otherwise it replaces the root, which is returned after
restoring the heap with `_siftup`.  `none` models the `IndexError` on an
empty heap (never reached by the program). -/
def heappop (heap : List Node) : Option (Node × List Node) :=
  match heap.getLast? with
  | none => none
  | some lastelt =>
    if heap.dropLast.isEmpty then some (lastelt, heap.dropLast)
    else some (heap.dropLast.headD default,
      siftup (heap.dropLast.set 0 lastelt) 0)

theorem siftdownLoop_length (newitem : Node) (startpos : Nat) :
    ∀ (pos : Nat) (heap : List Node),
      ((siftdownLoop newitem startpos heap pos).1).length = heap.length
  | pos, heap => by
    rw [siftdownLoop]
    split
    · split
      · rw [siftdownLoop_length newitem startpos ((pos - 1) / 2)]
        simp
      · rfl
    · rfl
termination_by pos => pos
decreasing_by
  have := Nat.div_le_self (pos - 1) 2
  omega

theorem siftupLoop_length (endpos : Nat) :
    ∀ (pos : Nat) (heap : List Node),
      ((siftupLoop endpos heap pos).1).length = heap.length
  | pos, heap => by
    rw [siftupLoop]
    split
    · split
      · rw [siftupLoop_length endpos (2 * pos + 2)]
        simp
      · rw [siftupLoop_length endpos (2 * pos + 1)]
        simp
    · rfl
termination_by pos => endpos - pos
decreasing_by
  · omega
  · omega

theorem siftdown_length (heap : List Node) (startpos pos : Nat) :
    (siftdown heap startpos pos).length = heap.length := by
  rw [siftdown]
  simp [siftdownLoop_length]

theorem siftup_length (heap : List Node) (pos : Nat) :
    (siftup heap pos).length = heap.length := by
  rw [siftup]
  simp [siftdown_length, siftupLoop_length]

theorem heappush_length (heap : List Node) (item : Node) :
    (heappush heap item).length = heap.length + 1 := by
  rw [heappush]
  simp [siftdown_length]

theorem heappop_length (heap : List Node) (x : Node) (rest : List Node)
    (h : heappop heap = some (x, rest)) : rest.length + 1 = heap.length := by
  rw [heappop] at h
  cases hl : heap.getLast? with
  | none => rw [hl] at h; exact absurd h (by simp)
  | some lastelt =>
    rw [hl] at h
    dsimp only at h
    have hne : heap ≠ [] := by
      intro he; rw [he] at hl; simp at hl
    have hlen : 1 ≤ heap.length := List.length_pos.mpr hne
    have hdl := heap.length_dropLast
    split at h
    case isTrue hd =>
      simp only [Option.some.injEq, Prod.mk.injEq] at h
      obtain ⟨h1, h2⟩ := h
      subst h2
      have h0 : heap.dropLast.length = 0 := by
        cases hdrop : heap.dropLast with
        | nil => rfl
        | cons a l => rw [hdrop] at hd; simp at hd
      omega
    case isFalse hd =>
      simp only [Option.some.injEq, Prod.mk.injEq] at h
      obtain ⟨h1, h2⟩ := h
      rw [← h2, siftup_length, List.length_set, heap.length_dropLast]
      omega

theorem heappop_eq_none (heap : List Node) : heappop heap = none ↔ heap = [] := by
  constructor
  · intro h
    rw [heappop] at h
    cases hl : heap.getLast? with
    | some lastelt =>
      rw [hl] at h
      dsimp only at h
      split at h <;> simp at h
    | none =>
      cases heap with
      | nil => rfl
      | cons a l => simp at hl
  · intro h; subst h; rfl

/-- The state of a `HuffmanTree` object: its three attributes set in
`__init__`. -/
structure HuffmanTree where
  root : Option Node
  code_table : List (Char × List Char)
  current_node : Option Node
deriving Repr, DecidableEq

/-- `HuffmanTree.__init__`. -/
def HuffmanTree.init : HuffmanTree :=
  { root := none, code_table := [], current_node := none }

/-- Python `d[k] = v` on an insertion-ordered dict: update in place when the
key is present, append otherwise. -/
def dictSet (d : List (Char × List Char)) (k : Char) (v : List Char) :
    List (Char × List Char) :=
  if d.any (fun p => p.1 == k) then
    d.map (fun p => if p.1 == k then (k, v) else p)
  else d ++ [(k, v)]

/-- The inner `traverse(node, code)` of `HuffmanTree._build_code_table`,
mutating the table: on a leaf record `code if code else "0"`, otherwise
recurse left with `code + "0"` then right with `code + "1"`.  (The Python
`node is None` guard only concerns a `None` root, which never reaches this
function: `_build_code_table` is called only right after `self.root` is set.) -/
def HuffmanTree.traverse : Node → List Char → List (Char × List Char) → List (Char × List Char)
  | .leaf _ c, code, table => dictSet table c (if code = [] then ['0'] else code)
  | .internal _ l r, code, table =>
      HuffmanTree.traverse r (code ++ ['1']) (HuffmanTree.traverse l (code ++ ['0']) table)

/-- `HuffmanTree._build_code_table`: reset the table and traverse from the
root with the empty code. -/
def build_code_table (root : Node) : List (Char × List Char) :=
  HuffmanTree.traverse root [] []

/-- The while loop of `HuffmanTree.build_from_frequencies`: while more than
one node remains, pop the two smallest (`left` then `right`), push
`Node(left.freq + right.freq, left=left, right=right)`.  The `none` branches
model the unreachable `IndexError` of popping an empty heap. -/
def buildLoop (pq : List Node) : List Node :=
  if h : 1 < pq.length then
    match h1 : heappop pq with
    | none => []
    | some (left, pq1) =>
      match h2 : heappop pq1 with
      | none => []
      | some (right, pq2) =>
        buildLoop (heappush pq2 (Node.internal (left.freq + right.freq) left right))
  else pq
termination_by pq.length
decreasing_by
  have e1 := heappop_length pq left pq1 h1
  have e2 := heappop_length pq1 right pq2 h2
  rw [heappush_length]
  omega

/-- `HuffmanTree.build_from_frequencies(freq_dict)`.  The frequency dict is an
insertion-ordered association list.  Empty dict: `ValueError` (`InvalidInput`).
One entry: the root is a single leaf and the code table maps the symbol to
`"0"`.  Otherwise: heapify one leaf per entry, run the merge loop, take the
remaining node (`priority_queue[0]`) as root and derive the code table. -/
def HuffmanTree.build_from_frequencies (freq_dict : List (Char × Nat)) :
    Except PyError HuffmanTree :=
  if freq_dict.isEmpty then .error .InvalidInput
  else if freq_dict.length = 1 then
    let char := (freq_dict.headD default).1
    let freq := (freq_dict.headD default).2
    .ok { root := some (Node.leaf freq char),
          code_table := [(char, ['0'])],
          current_node := some (Node.leaf freq char) }
  else
    let pq := buildLoop (heapify (freq_dict.map (fun p => Node.leaf p.2 p.1)))
    let root := pq.headD default
    .ok { root := some root,
          code_table := build_code_table root,
          current_node := some root }

/-- `HuffmanTree.encode(char)`: `UnknownSymbol` when the symbol is not in the
code table, otherwise the stored code. -/
def HuffmanTree.encode (t : HuffmanTree) (char : Char) : Except PyError (List Char) :=
  match t.code_table.lookup char with
  | none => .error .UnknownSymbol
  | some code => .ok code

/-- `HuffmanTree.encode_text(text)`: `''.join(self.encode(char) for char in text)`,
failing at the first unknown symbol with no partial result. -/
def HuffmanTree.encode_text (t : HuffmanTree) (text : List Char) :
    Except PyError (List Char) :=
  match text with
  | [] => .ok []
  | c :: rest =>
    match t.encode c with
    | .error e => .error e
    | .ok code =>
      match t.encode_text rest with
      | .error e => .error e
      | .ok more => .ok (code ++ more)

/-- `HuffmanTree.decode(bit)`: single-step stateful decode, returning the
`(ok, char)` pair (or the raised error) together with the state of the object
after the call. -/
def HuffmanTree.decode (t : HuffmanTree) (bit : Char) :
    Except PyError (Bool × Option Char) × HuffmanTree :=
  if ¬ (bit = '0' ∨ bit = '1') then (.error .InvalidInput, t)
  else
    match t.root with
    | none => (.error .UninitializedTree, t)
    | some root =>
      let cur := t.current_node.getD root
      let t1 : HuffmanTree := { t with current_node := some cur }
      if root.is_leaf then (.ok (true, root.char), t1)
      else
        match (if bit = '0' then cur.left else cur.right) with
        | none => (.error .AttributeError, { t1 with current_node := none })
        | some next =>
          if next.is_leaf then (.ok (true, next.char), { t1 with current_node := t1.root })
          else (.ok (false, none), { t1 with current_node := some next })

/-- `HuffmanTree.reset_decoder()`. -/
def HuffmanTree.reset_decoder (t : HuffmanTree) : HuffmanTree :=
  { t with current_node := t.root }

/-- The for loop of `HuffmanTree.decode_text`: feed each bit to `decode`,
appending the decoded symbol whenever `ok` is true; an exception aborts the
loop with the state reached so far. -/
def decodeTextLoop (t : HuffmanTree) (bits : List Char) (acc : List Char) :
    Except PyError (List Char) × HuffmanTree :=
  match bits with
  | [] => (.ok acc, t)
  | b :: rest =>
    match t.decode b with
    | (.error e, t1) => (.error e, t1)
    | (.ok (ok, ch), t1) =>
      decodeTextLoop t1 rest (if ok then acc ++ ch.toList else acc)

/-- `HuffmanTree.decode_text(bitstring)`: reset the decoder, then run the loop. -/
def HuffmanTree.decode_text (t : HuffmanTree) (bits : List Char) :
    Except PyError (List Char) × HuffmanTree :=
  decodeTextLoop t.reset_decoder bits []

/-- A heap of Python dict objects, for expressing the aliasing behaviour of
`HuffmanTree.get_code_table`: the instance's `code_table` lives at some index,
and dict mutation overwrites the dict stored at an index. -/
structure PyDictHeap where
  dicts : List (List (Char × List Char))
deriving Repr, DecidableEq

/-- Allocation of a fresh dict object on the heap. -/
def PyDictHeap.alloc (h : PyDictHeap) (d : List (Char × List Char)) :
    PyDictHeap × Nat :=
  (⟨h.dicts ++ [d]⟩, h.dicts.length)

/-- Mutation of the dict object stored at index `i`. -/
def PyDictHeap.setDict (h : PyDictHeap) (i : Nat) (d : List (Char × List Char)) :
    PyDictHeap :=
  ⟨h.dicts.set i d⟩

/-- `HuffmanTree.get_code_table`, at the dict-object level: the source returns
`self.code_table.copy()`, i.e. allocates a fresh dict with the same entries as
the instance's table (stored at `tableRef`) and returns a reference to the new
object, never `tableRef` itself. -/
def get_code_table (h : PyDictHeap) (tableRef : Nat) : PyDictHeap × Nat :=
  h.alloc (h.dicts.getD tableRef [])

/-! ## Derived specification functions over the embedded program -/

/-- The `(symbol, frequency)` leaf entries of a tree, left to right. -/
def Node.leafList : Node → List (Char × Nat)
  | .leaf f c => [(c, f)]
  | .internal _ l r => l.leafList ++ r.leafList

/-- The symbols at the leaves of a tree, left to right. -/
def Node.chars (n : Node) : List Char :=
  n.leafList.map Prod.fst

/-- Leaf entries of all trees of a forest, in order. -/
def forestLeaves (pq : List Node) : List (Char × Nat) :=
  (pq.map Node.leafList).flatten

/-- Frequency conservation: every internal node of the tree carries exactly
the sum of its two children's frequencies. -/
def Node.conserv : Node → Bool
  | .leaf _ _ => true
  | .internal f l r => (f == l.freq + r.freq) && l.conserv && r.conserv

/-- The root-to-leaf code of every leaf in traversal order: `'0'` when
descending left, `'1'` when descending right. -/
def Node.paths : Node → List (Char × List Char)
  | .leaf _ c => [(c, [])]
  | .internal _ l r =>
      l.paths.map (fun e => (e.1, '0' :: e.2)) ++ r.paths.map (fun e => (e.1, '1' :: e.2))

/-- Walk from a node along a list of bits (`'0'` = left child, anything else
= right child, matching `decode`); `none` when a leaf is hit with bits left. -/
def Node.walk : Node → List Char → Option Node
  | n, [] => some n
  | .leaf _ _, _ :: _ => none
  | .internal _ l r, b :: rest => Node.walk (if b = '0' then l else r) rest

/-- The incremental decoding procedure described by the specification:
reset, then feed the bits one at a time through the single-step `decode`,
collecting the symbol of every complete result, in order.  (Defined
independently of `decode_text`'s accumulator loop.) -/
def collectSteps : HuffmanTree → List Char → Except PyError (List Char) × HuffmanTree
  | t, [] => (.ok [], t)
  | t, b :: rest =>
    match t.decode b with
    | (.error e, t1) => (.error e, t1)
    | (.ok (ok, ch), t1) =>
      match collectSteps t1 rest with
      | (.error e, t2) => (.error e, t2)
      | (.ok syms, t2) => (.ok ((if ok then ch.toList else []) ++ syms), t2)

/-! ## Unfolding equations for the loops -/

theorem siftdownLoop_eq_stop (ni : Node) (sp : Nat) (heap : List Node) (pos : Nat)
    (h : ¬ sp < pos) : siftdownLoop ni sp heap pos = (heap, pos) := by
  rw [siftdownLoop]; rw [dif_neg h]

theorem siftdownLoop_eq_move (ni : Node) (sp : Nat) (heap : List Node) (pos : Nat)
    (h : sp < pos) (h2 : ni.freq < (heap.getD ((pos - 1) / 2) default).freq) :
    siftdownLoop ni sp heap pos =
      siftdownLoop ni sp (heap.set pos (heap.getD ((pos - 1) / 2) default)) ((pos - 1) / 2) := by
  rw [siftdownLoop]; rw [dif_pos h, if_pos h2]

theorem siftdownLoop_eq_settle (ni : Node) (sp : Nat) (heap : List Node) (pos : Nat)
    (h : sp < pos) (h2 : ¬ ni.freq < (heap.getD ((pos - 1) / 2) default).freq) :
    siftdownLoop ni sp heap pos = (heap, pos) := by
  rw [siftdownLoop]; rw [dif_pos h, if_neg h2]

theorem siftupLoop_eq_stop (endpos : Nat) (heap : List Node) (pos : Nat)
    (h : ¬ 2 * pos + 1 < endpos) : siftupLoop endpos heap pos = (heap, pos) := by
  rw [siftupLoop]; rw [dif_neg h]

theorem siftupLoop_eq_right (endpos : Nat) (heap : List Node) (pos : Nat)
    (h : 2 * pos + 1 < endpos)
    (h2 : 2 * pos + 2 < endpos ∧
      ¬ (heap.getD (2 * pos + 1) default).freq < (heap.getD (2 * pos + 2) default).freq) :
    siftupLoop endpos heap pos =
      siftupLoop endpos (heap.set pos (heap.getD (2 * pos + 2) default)) (2 * pos + 2) := by
  rw [siftupLoop]; rw [dif_pos h, dif_pos h2]

theorem siftupLoop_eq_left (endpos : Nat) (heap : List Node) (pos : Nat)
    (h : 2 * pos + 1 < endpos)
    (h2 : ¬ (2 * pos + 2 < endpos ∧
      ¬ (heap.getD (2 * pos + 1) default).freq < (heap.getD (2 * pos + 2) default).freq)) :
    siftupLoop endpos heap pos =
      siftupLoop endpos (heap.set pos (heap.getD (2 * pos + 1) default)) (2 * pos + 1) := by
  rw [siftupLoop]; rw [dif_pos h, dif_neg h2]

theorem buildLoop_eq_stop (pq : List Node) (h : ¬ 1 < pq.length) : buildLoop pq = pq := by
  rw [buildLoop]; rw [dif_neg h]

theorem buildLoop_unfold (pq : List Node) (h : 1 < pq.length) :
    buildLoop pq =
      match heappop pq with
      | none => []
      | some (left, pq1) =>
        match heappop pq1 with
        | none => []
        | some (right, pq2) =>
          buildLoop (heappush pq2 (Node.internal (left.freq + right.freq) left right)) := by
  rw [buildLoop, dif_pos h]
  split
  next heq => simp only [heq]
  next left pq1 heq =>
    simp only [heq]
    split
    next heq2 => simp only [heq2]
    next right pq2 heq2 => simp only [heq2]

theorem buildLoop_step (pq pq1 pq2 : List Node) (left right : Node)
    (h : 1 < pq.length) (h1 : heappop pq = some (left, pq1))
    (h2 : heappop pq1 = some (right, pq2)) :
    buildLoop pq = buildLoop (heappush pq2 (Node.internal (left.freq + right.freq) left right)) := by
  rw [buildLoop_unfold pq h]
  simp only [h1, h2]

/-! ## List helper lemmas -/

theorem getD_set_eq {α : Type} (d : α) :
    ∀ (l : List α) (i : Nat) (a : α), i < l.length → (l.set i a).getD i d = a
  | [], i, a, h => absurd h (by simp)
  | x :: t, 0, a, _ => rfl
  | x :: t, i + 1, a, h => by
    simp only [List.set_cons_succ, List.getD_cons_succ]
    exact getD_set_eq d t i a (by simpa using h)

theorem getD_set_ne {α : Type} (d : α) :
    ∀ (l : List α) (i j : Nat) (a : α), i ≠ j → (l.set i a).getD j d = l.getD j d
  | [], i, j, a, _ => by simp
  | x :: t, 0, 0, a, h => absurd rfl h
  | x :: t, 0, j + 1, a, _ => rfl
  | x :: t, i + 1, 0, a, _ => rfl
  | x :: t, i + 1, j + 1, a, h => by
    simp only [List.set_cons_succ, List.getD_cons_succ]
    exact getD_set_ne d t i j a (fun e => h (by rw [e]))

theorem set_getD_self {α : Type} (d : α) :
    ∀ (l : List α) (i : Nat), i < l.length → l.set i (l.getD i d) = l
  | [], i, h => absurd h (by simp)
  | x :: t, 0, _ => rfl
  | x :: t, i + 1, h => by
    simp only [List.getD_cons_succ, List.set_cons_succ]
    rw [set_getD_self d t i (by simpa using h)]

theorem getD_cons_set_perm {α : Type} (d : α) :
    ∀ (t : List α) (k : Nat) (x : α), k < t.length →
      (t.getD k d :: t.set k x).Perm (x :: t)
  | [], k, x, h => absurd h (by simp)
  | y :: s, 0, x, _ => List.Perm.swap x y s
  | y :: s, k + 1, x, h => by
    simp only [List.getD_cons_succ, List.set_cons_succ]
    exact ((List.Perm.swap y (s.getD k d) (s.set k x)).trans
      ((getD_cons_set_perm d s k x (by simpa using h)).cons y)).trans
      (List.Perm.swap x y s)

theorem set_swap_perm {α : Type} (d : α) :
    ∀ (l : List α) (i j : Nat), i < l.length → j < l.length →
      ((l.set i (l.getD j d)).set j (l.getD i d)).Perm l
  | [], i, j, hi, _ => absurd hi (by simp)
  | x :: t, 0, 0, _, _ => by simp
  | x :: t, 0, j + 1, _, hj => by
    simp only [List.getD_cons_succ, List.getD_cons_zero, List.set_cons_succ, List.set_cons_zero]
    exact getD_cons_set_perm d t j x (by simpa using hj)
  | x :: t, i + 1, 0, hi, _ => by
    simp only [List.getD_cons_succ, List.getD_cons_zero, List.set_cons_succ, List.set_cons_zero]
    exact getD_cons_set_perm d t i x (by simpa using hi)
  | x :: t, i + 1, j + 1, hi, hj => by
    simp only [List.getD_cons_succ, List.set_cons_succ]
    exact (set_swap_perm d t i j (by simpa using hi) (by simpa using hj)).cons x

/-- One loop iteration of `_siftdown` / `_siftup` moves the element at `j`
into the hole at `pos` and the hole to `j`; plugging the hole with any `x`
before and after gives permuted lists. -/
theorem hole_step_perm {α : Type} (d : α) (heap : List α) (pos j : Nat)
    (hpos : pos < heap.length) (hj : j < heap.length) (hne : j ≠ pos) (x : α) :
    ((heap.set pos (heap.getD j d)).set j x).Perm (heap.set pos x) := by
  have hne2 : pos ≠ j := fun e => hne e.symm
  have main := set_swap_perm d (heap.set pos x) pos j (by simpa using hpos) (by simpa using hj)
  rw [getD_set_eq d heap pos x hpos] at main
  rw [getD_set_ne d heap pos j x hne2] at main
  rw [List.set_set] at main
  exact main

theorem siftdownLoop_perm (ni : Node) (sp : Nat) :
    ∀ (pos : Nat) (heap : List Node), pos < heap.length →
      (siftdownLoop ni sp heap pos).2 < heap.length ∧
      ∀ x, ((siftdownLoop ni sp heap pos).1.set (siftdownLoop ni sp heap pos).2 x).Perm
        (heap.set pos x)
  | pos, heap => by
    intro hpos
    by_cases h : sp < pos
    · by_cases h2 : ni.freq < (heap.getD ((pos - 1) / 2) default).freq
      · rw [siftdownLoop_eq_move ni sp heap pos h h2]
        have hlt : (pos - 1) / 2 < pos := by
          have := Nat.div_le_self (pos - 1) 2
          omega
        have hpp : (pos - 1) / 2 < (heap.set pos (heap.getD ((pos - 1) / 2) default)).length := by
          simp only [List.length_set]
          omega
        obtain ⟨ih1, ih2⟩ := siftdownLoop_perm ni sp ((pos - 1) / 2)
          (heap.set pos (heap.getD ((pos - 1) / 2) default)) hpp
        constructor
        · simpa using ih1
        · intro x
          exact (ih2 x).trans (hole_step_perm default heap pos ((pos - 1) / 2) hpos
            (by omega) (by omega) x)
      · rw [siftdownLoop_eq_settle ni sp heap pos h h2]
        exact ⟨hpos, fun x => List.Perm.refl _⟩
    · rw [siftdownLoop_eq_stop ni sp heap pos h]
      exact ⟨hpos, fun x => List.Perm.refl _⟩
termination_by pos => pos
decreasing_by
  have := Nat.div_le_self (pos - 1) 2
  omega

theorem siftupLoop_perm :
    ∀ (pos : Nat) (heap : List Node), pos < heap.length →
      (siftupLoop heap.length heap pos).2 < heap.length ∧
      ∀ x, ((siftupLoop heap.length heap pos).1.set (siftupLoop heap.length heap pos).2 x).Perm
        (heap.set pos x) := by
  have main : ∀ (endpos fuel pos : Nat) (heap : List Node), endpos - pos ≤ fuel →
      endpos = heap.length → pos < endpos →
      (siftupLoop endpos heap pos).2 < heap.length ∧
      ∀ x, ((siftupLoop endpos heap pos).1.set (siftupLoop endpos heap pos).2 x).Perm
        (heap.set pos x) := by
    intro endpos fuel
    induction fuel with
    | zero => intro pos heap hf he hpos; omega
    | succ m ih =>
      intro pos heap hf he hpos
      by_cases h : 2 * pos + 1 < endpos
      · by_cases h2 : 2 * pos + 2 < endpos ∧
            ¬ (heap.getD (2 * pos + 1) default).freq < (heap.getD (2 * pos + 2) default).freq
        · rw [siftupLoop_eq_right endpos heap pos h h2]
          have he2 : endpos = (heap.set pos (heap.getD (2 * pos + 2) default)).length := by
            simpa using he
          obtain ⟨ih1, ih2⟩ := ih (2 * pos + 2)
            (heap.set pos (heap.getD (2 * pos + 2) default)) (by omega) he2 (by omega)
          constructor
          · simpa using ih1
          · intro x
            exact (ih2 x).trans (hole_step_perm default heap pos (2 * pos + 2) (by omega)
              (by omega) (by omega) x)
        · rw [siftupLoop_eq_left endpos heap pos h h2]
          have he2 : endpos = (heap.set pos (heap.getD (2 * pos + 1) default)).length := by
            simpa using he
          obtain ⟨ih1, ih2⟩ := ih (2 * pos + 1)
            (heap.set pos (heap.getD (2 * pos + 1) default)) (by omega) he2 (by omega)
          constructor
          · simpa using ih1
          · intro x
            exact (ih2 x).trans (hole_step_perm default heap pos (2 * pos + 1) (by omega)
              (by omega) (by omega) x)
      · rw [siftupLoop_eq_stop endpos heap pos h]
        exact ⟨by omega, fun x => List.Perm.refl _⟩
  intro pos heap hpos
  exact main heap.length heap.length pos heap (by omega) rfl (by omega)

theorem siftdown_perm (heap : List Node) (sp pos : Nat) (hpos : pos < heap.length) :
    (siftdown heap sp pos).Perm heap := by
  rw [siftdown]
  obtain ⟨h1, h2⟩ := siftdownLoop_perm (heap.getD pos default) sp pos heap hpos
  exact (h2 (heap.getD pos default)).trans
    (by rw [set_getD_self default heap pos hpos])

theorem siftup_perm (heap : List Node) (pos : Nat) (hpos : pos < heap.length) :
    (siftup heap pos).Perm heap := by
  rw [siftup]
  obtain ⟨h1, h2⟩ := siftupLoop_perm pos heap hpos
  have hmid : ((siftupLoop heap.length heap pos).1.set (siftupLoop heap.length heap pos).2
      (heap.getD pos default)).Perm heap :=
    (h2 (heap.getD pos default)).trans (by rw [set_getD_self default heap pos hpos])
  have hlen : ((siftupLoop heap.length heap pos).1.set (siftupLoop heap.length heap pos).2
      (heap.getD pos default)).length = heap.length := by
    simp [siftupLoop_length]
  exact (siftdown_perm _ pos _ (by rw [hlen]; exact h1)).trans hmid

theorem heapifyFrom_perm : ∀ (k : Nat) (heap : List Node), k ≤ heap.length →
    (heapifyFrom heap k).Perm heap
  | 0, heap, _ => List.Perm.refl heap
  | k + 1, heap, h => by
    rw [heapifyFrom]
    have hs := siftup_perm heap k (by omega)
    have hlen : (siftup heap k).length = heap.length := siftup_length heap k
    exact (heapifyFrom_perm k (siftup heap k) (by omega)).trans hs

theorem heapify_perm (heap : List Node) : (heapify heap).Perm heap := by
  rw [heapify]
  exact heapifyFrom_perm (heap.length / 2) heap (Nat.div_le_self _ _)

theorem heappush_perm (heap : List Node) (item : Node) :
    (heappush heap item).Perm (item :: heap) := by
  rw [heappush]
  have hlen : (heap ++ [item]).length - 1 < (heap ++ [item]).length := by
    simp
  exact (siftdown_perm (heap ++ [item]) 0 ((heap ++ [item]).length - 1) hlen).trans
    (List.perm_append_singleton item heap)

theorem heappop_perm (heap : List Node) (x : Node) (rest : List Node)
    (h : heappop heap = some (x, rest)) : (x :: rest).Perm heap := by
  rw [heappop] at h
  cases hl : heap.getLast? with
  | none => rw [hl] at h; exact absurd h (by simp)
  | some lastelt =>
    rw [hl] at h
    dsimp only at h
    have hne : heap ≠ [] := by
      intro he; rw [he] at hl; simp at hl
    have hgleq : heap.getLast hne = lastelt := by
      have h0 := (List.getLast?_eq_getLast heap hne).symm.trans hl
      exact Option.some.inj h0
    have hsplit : heap.dropLast ++ [lastelt] = heap := by
      rw [← hgleq]
      exact List.dropLast_append_getLast hne
    split at h
    case isTrue hd =>
      simp only [Option.some.injEq, Prod.mk.injEq] at h
      obtain ⟨rfl, rfl⟩ := h
      have hdrop : heap.dropLast = [] := by
        cases hdrop : heap.dropLast with
        | nil => rfl
        | cons a l => rw [hdrop] at hd; simp at hd
      rw [← hsplit, hdrop]
      exact List.Perm.refl _
    case isFalse hd =>
      simp only [Option.some.injEq, Prod.mk.injEq] at h
      obtain ⟨h1, h2⟩ := h
      cases hdrop : heap.dropLast with
      | nil => rw [hdrop] at hd; simp at hd
      | cons a tl =>
        rw [hdrop] at h1 h2
        have hx : x = a := by rw [← h1]; rfl
        have hperm : rest.Perm (lastelt :: tl) := by
          rw [← h2]
          have : (a :: tl).set 0 lastelt = lastelt :: tl := rfl
          rw [this]
          exact siftup_perm (lastelt :: tl) 0 (by simp)
        subst hx
        have h3 : (x :: rest).Perm (x :: lastelt :: tl) := hperm.cons x
        have h4 : (x :: lastelt :: tl).Perm (x :: (tl ++ [lastelt])) :=
          ((List.perm_append_singleton lastelt tl).symm).cons x
        have h5 : x :: (tl ++ [lastelt]) = heap := by
          rw [show x :: (tl ++ [lastelt]) = (x :: tl) ++ [lastelt] from rfl, ← hdrop]
          exact hsplit
        exact h5 ▸ (h3.trans h4)

/-! ## The build loop: leaf multiset preservation and frequency conservation -/

theorem forestLeaves_nil : forestLeaves [] = [] := rfl

theorem forestLeaves_cons (n : Node) (pq : List Node) :
    forestLeaves (n :: pq) = n.leafList ++ forestLeaves pq := by
  simp [forestLeaves]

theorem forestLeaves_perm {p q : List Node} (h : p.Perm q) :
    (forestLeaves p).Perm (forestLeaves q) :=
  (h.map Node.leafList).flatten

theorem buildLoop_spec : ∀ (n : Nat) (pq : List Node), pq.length = n → pq ≠ [] →
    ∃ r, buildLoop pq = [r] ∧ (r.leafList).Perm (forestLeaves pq) ∧
      ((∀ m ∈ pq, m.conserv = true) → r.conserv = true) := by
  intro n
  induction n using Nat.strong_induction_on with
  | _ n ih =>
    intro pq hlen hne
    by_cases h : 1 < pq.length
    · cases h1 : heappop pq with
      | none => exact absurd ((heappop_eq_none pq).mp h1) hne
      | some p1 =>
        obtain ⟨left, pq1⟩ := p1
        have e1 := heappop_length pq left pq1 h1
        cases h2 : heappop pq1 with
        | none =>
          have : pq1 = [] := (heappop_eq_none pq1).mp h2
          rw [this] at e1
          simp at e1
          omega
        | some p2 =>
          obtain ⟨right, pq2⟩ := p2
          have e2 := heappop_length pq1 right pq2 h2
          have hstep := buildLoop_step pq pq1 pq2 left right h h1 h2
          set parent := Node.internal (left.freq + right.freq) left right with hparent
          have hlen' : (heappush pq2 parent).length = pq.length - 1 := by
            rw [heappush_length]; omega
          have hne' : heappush pq2 parent ≠ [] := by
            intro he
            rw [he] at hlen'
            simp at hlen'
            omega
          obtain ⟨r, hr1, hr2, hr3⟩ := ih (pq.length - 1) (by omega)
            (heappush pq2 parent) hlen' hne'
          have hpq1perm : (left :: pq1).Perm pq := heappop_perm pq left pq1 h1
          have hpq2perm : (right :: pq2).Perm pq1 := heappop_perm pq1 right pq2 h2
          have hpushperm : (heappush pq2 parent).Perm (parent :: pq2) :=
            heappush_perm pq2 parent
          refine ⟨r, by rw [hstep]; exact hr1, ?_, ?_⟩
          · have c1 : (forestLeaves (heappush pq2 parent)).Perm
                (forestLeaves (parent :: pq2)) := forestLeaves_perm hpushperm
            have c2 : forestLeaves (parent :: pq2) =
                (left.leafList ++ right.leafList) ++ forestLeaves pq2 := by
              rw [forestLeaves_cons, hparent]
              simp [Node.leafList]
            have c3 : ((left.leafList ++ right.leafList) ++ forestLeaves pq2).Perm
                (left.leafList ++ forestLeaves pq1) := by
              rw [List.append_assoc]
              refine List.Perm.append_left left.leafList ?_
              have := forestLeaves_perm hpq2perm
              rwa [forestLeaves_cons] at this
            have c4 : (left.leafList ++ forestLeaves pq1).Perm (forestLeaves pq) := by
              have := forestLeaves_perm hpq1perm
              rwa [forestLeaves_cons] at this
            exact hr2.trans (c1.trans (c2 ▸ (c3.trans c4)))
          · intro hc
            apply hr3
            intro m hm
            have hm2 : m ∈ parent :: pq2 := hpushperm.mem_iff.mp hm
            cases hm2 with
            | head =>
              rw [hparent]
              have hl : left.conserv = true := hc left (hpq1perm.mem_iff.mp (by simp))
              have hrght : right.conserv = true := by
                apply hc
                apply hpq1perm.mem_iff.mp
                apply List.mem_cons_of_mem
                exact hpq2perm.mem_iff.mp (by simp)
              simp [Node.conserv, Node.freq, hl, hrght]
            | tail _ hm3 =>
              apply hc
              apply hpq1perm.mem_iff.mp
              apply List.mem_cons_of_mem
              apply hpq2perm.mem_iff.mp
              exact List.mem_cons_of_mem right hm3
    · have : pq.length = 1 := by
        have : 1 ≤ pq.length := List.length_pos.mpr hne
        omega
      obtain ⟨r, rfl⟩ := List.length_eq_one.mp this
      refine ⟨r, buildLoop_eq_stop [r] h, ?_, ?_⟩
      · simp [forestLeaves]
      · intro hc; exact hc r (by simp)

theorem forestLeaves_map_leaf : ∀ (fd : List (Char × Nat)),
    forestLeaves (fd.map (fun p => Node.leaf p.2 p.1)) = fd
  | [] => rfl
  | (c, f) :: rest => by
    simp only [List.map_cons, forestLeaves_cons, Node.leafList]
    rw [forestLeaves_map_leaf rest]
    rfl

/-- Characterization of a successful `build_from_frequencies` on a mapping
with at least two entries: the tree and the cursor point at the merged root,
the code table is derived from it, its leaf entries are a permutation of the
input entries, and frequency conservation holds. -/
theorem build_spec (fd : List (Char × Nat)) (t : HuffmanTree)
    (hlen : 2 ≤ fd.length)
    (hb : HuffmanTree.build_from_frequencies fd = .ok t) :
    ∃ r, t.root = some r ∧ t.current_node = some r ∧
      t.code_table = build_code_table r ∧
      (r.leafList).Perm fd ∧ r.conserv = true := by
  rw [HuffmanTree.build_from_frequencies] at hb
  rw [if_neg (by simp [List.isEmpty_iff]; intro he; rw [he] at hlen; simp at hlen)] at hb
  rw [if_neg (by omega)] at hb
  simp only [Except.ok.injEq] at hb
  set pq0 := fd.map (fun p => Node.leaf p.2 p.1) with hpq0
  have hheap : (heapify pq0).Perm pq0 := heapify_perm pq0
  have hheaplen : (heapify pq0).length = fd.length := by
    rw [hheap.length_eq, hpq0, List.length_map]
  have hheapne : heapify pq0 ≠ [] := by
    intro he
    rw [he] at hheaplen
    simp at hheaplen
    omega
  obtain ⟨r, hr1, hr2, hr3⟩ := buildLoop_spec (heapify pq0).length (heapify pq0) rfl hheapne
  refine ⟨r, ?_, ?_, ?_, ?_, ?_⟩
  · rw [← hb]; simp [hr1]
  · rw [← hb]; simp [hr1]
  · rw [← hb]; simp [hr1]
  · have : (forestLeaves (heapify pq0)).Perm (forestLeaves pq0) := forestLeaves_perm hheap
    rw [hpq0, forestLeaves_map_leaf] at this
    exact hr2.trans this
  · apply hr3
    intro m hm
    have hm2 : m ∈ pq0 := hheap.mem_iff.mp hm
    rw [hpq0] at hm2
    obtain ⟨p, _, rfl⟩ := List.mem_map.mp hm2
    rfl

theorem conserv_freq_sum : ∀ (n : Node), n.conserv = true →
    n.freq = (n.leafList.map Prod.snd).sum
  | .leaf f c, _ => by simp [Node.leafList, Node.freq]
  | .internal f l r, h => by
    simp only [Node.conserv, Bool.and_eq_true, beq_iff_eq] at h
    obtain ⟨⟨hf, hl⟩, hr⟩ := h
    simp only [Node.leafList, Node.freq, List.map_append, List.sum_append]
    rw [← conserv_freq_sum l hl, ← conserv_freq_sum r hr]
    exact hf

/-! ## The code table as root-to-leaf paths -/

theorem dictSet_of_not_mem (d : List (Char × List Char)) (k : Char) (v : List Char)
    (h : k ∉ d.map Prod.fst) : dictSet d k v = d ++ [(k, v)] := by
  rw [dictSet, if_neg]
  simp only [List.any_eq_true, beq_iff_eq, not_exists]
  intro p hp
  exact h (List.mem_map.mpr ⟨p, hp.1, hp.2⟩)

theorem paths_fst : ∀ (n : Node), n.paths.map Prod.fst = n.leafList.map Prod.fst
  | .leaf f c => rfl
  | .internal f l r => by
    simp only [Node.paths, Node.leafList, List.map_append, List.map_map]
    rw [show (Prod.fst ∘ fun e : Char × List Char => (e.1, '0' :: e.2)) = Prod.fst from rfl]
    rw [show (Prod.fst ∘ fun e : Char × List Char => (e.1, '1' :: e.2)) = Prod.fst from rfl]
    rw [paths_fst l, paths_fst r]

theorem traverse_eq : ∀ (n : Node) (p : List Char) (tbl : List (Char × List Char)),
    p ≠ [] →
    (∀ c ∈ n.leafList.map Prod.fst, c ∉ tbl.map Prod.fst) →
    (n.leafList.map Prod.fst).Nodup →
    HuffmanTree.traverse n p tbl = tbl ++ n.paths.map (fun e => (e.1, p ++ e.2))
  | .leaf f c, p, tbl, hp, hdisj, _ => by
    rw [HuffmanTree.traverse, if_neg hp]
    rw [dictSet_of_not_mem tbl c p (hdisj c (by simp [Node.leafList]))]
    simp [Node.paths]
  | .internal f l r, p, tbl, hp, hdisj, hnd => by
    rw [HuffmanTree.traverse]
    have hndl : (l.leafList.map Prod.fst).Nodup := by
      simp only [Node.leafList, List.map_append, List.nodup_append] at hnd
      exact hnd.1
    have hndr : (r.leafList.map Prod.fst).Nodup := by
      simp only [Node.leafList, List.map_append, List.nodup_append] at hnd
      exact hnd.2.1
    have hdisjlr : ∀ c ∈ r.leafList.map Prod.fst, c ∉ l.leafList.map Prod.fst := by
      simp only [Node.leafList, List.map_append, List.nodup_append] at hnd
      intro c hc hcl
      exact hnd.2.2 hcl hc
    have hm0 : (l.paths.map (fun e : Char × List Char => (e.1, '0' :: e.2))).map
        (fun e : Char × List Char => (e.1, p ++ e.2)) =
        l.paths.map (fun e => (e.1, (p ++ ['0']) ++ e.2)) := by
      rw [List.map_map]
      apply List.map_congr_left
      intro e _
      simp
    have hm1 : (r.paths.map (fun e : Char × List Char => (e.1, '1' :: e.2))).map
        (fun e : Char × List Char => (e.1, p ++ e.2)) =
        r.paths.map (fun e => (e.1, (p ++ ['1']) ++ e.2)) := by
      rw [List.map_map]
      apply List.map_congr_left
      intro e _
      simp
    rw [traverse_eq l (p ++ ['0']) tbl (by simp)
      (fun c hc => hdisj c (by simp [Node.leafList, hc]))
      hndl]
    rw [traverse_eq r (p ++ ['1'])
      (tbl ++ l.paths.map (fun e => (e.1, (p ++ ['0']) ++ e.2))) (by simp)
      ?_ hndr]
    · rw [Node.paths, List.map_append, hm0, hm1, List.append_assoc]
    · intro c hc
      simp only [List.map_append, List.map_map, List.mem_append]
      rintro (hctbl | hcl)
      · exact hdisj c (by simp [Node.leafList, hc]) hctbl
      · apply hdisjlr c hc
        rw [show (Prod.fst ∘ fun e : Char × List Char => (e.1, (p ++ ['0']) ++ e.2)) =
          Prod.fst from rfl] at hcl
        rwa [paths_fst l] at hcl

/-- For an internal root with pairwise-distinct leaf symbols, the code table
built by `_build_code_table` is exactly the list of root-to-leaf paths. -/
theorem build_code_table_internal (f : Nat) (l r : Node)
    (hnd : ((Node.internal f l r).leafList.map Prod.fst).Nodup) :
    build_code_table (Node.internal f l r) = (Node.internal f l r).paths := by
  have hndl : (l.leafList.map Prod.fst).Nodup := by
    simp only [Node.leafList, List.map_append, List.nodup_append] at hnd
    exact hnd.1
  have hndr : (r.leafList.map Prod.fst).Nodup := by
    simp only [Node.leafList, List.map_append, List.nodup_append] at hnd
    exact hnd.2.1
  have hdisjlr : ∀ c ∈ r.leafList.map Prod.fst, c ∉ l.leafList.map Prod.fst := by
    simp only [Node.leafList, List.map_append, List.nodup_append] at hnd
    intro c hc hcl
    exact hnd.2.2 hcl hc
  rw [build_code_table, HuffmanTree.traverse]
  rw [traverse_eq l ([] ++ ['0']) [] (by simp) (by simp) hndl]
  rw [traverse_eq r ([] ++ ['1']) _ (by simp) ?_ hndr]
  · rfl
  · intro c hc
    simp only [List.nil_append, List.map_map]
    rw [show (Prod.fst ∘ fun e : Char × List Char => (e.1, ['0'] ++ e.2)) =
      Prod.fst from rfl]
    rw [paths_fst l]
    exact hdisjlr c hc

/-! ## Prefix-freeness of the paths -/

theorem paths_pairwise_not_isPrefixOf : ∀ (n : Node),
    n.paths.Pairwise (fun a b => a.2.isPrefixOf b.2 = false ∧ b.2.isPrefixOf a.2 = false)
  | .leaf f c => by simp [Node.paths]
  | .internal f l r => by
    have ihl := paths_pairwise_not_isPrefixOf l
    have ihr := paths_pairwise_not_isPrefixOf r
    rw [Node.paths, List.pairwise_append]
    refine ⟨?_, ?_, ?_⟩
    · rw [List.pairwise_map]
      refine ihl.imp ?_
      intro a b hab
      simpa [List.isPrefixOf] using hab
    · rw [List.pairwise_map]
      refine ihr.imp ?_
      intro a b hab
      simpa [List.isPrefixOf] using hab
    · intro a ha b hb
      obtain ⟨ea, _, rfl⟩ := List.mem_map.mp ha
      obtain ⟨eb, _, rfl⟩ := List.mem_map.mp hb
      simp [List.isPrefixOf]

theorem paths_internal_code_ne_nil (f : Nat) (l r : Node) :
    ∀ e ∈ (Node.internal f l r).paths, e.2 ≠ [] := by
  intro e he
  rw [Node.paths] at he
  rcases List.mem_append.mp he with hl | hr
  · obtain ⟨e0, _, rfl⟩ := List.mem_map.mp hl
    simp
  · obtain ⟨e0, _, rfl⟩ := List.mem_map.mp hr
    simp

theorem paths_bits_valid : ∀ (n : Node), ∀ e ∈ n.paths, ∀ b ∈ e.2, b = '0' ∨ b = '1'
  | .leaf f c => by simp [Node.paths]
  | .internal f l r => by
    intro e he b hb
    rw [Node.paths] at he
    rcases List.mem_append.mp he with h | h
    · obtain ⟨e0, he0, rfl⟩ := List.mem_map.mp h
      rcases List.mem_cons.mp hb with rfl | hb2
      · exact Or.inl rfl
      · exact paths_bits_valid l e0 he0 b hb2
    · obtain ⟨e0, he0, rfl⟩ := List.mem_map.mp h
      rcases List.mem_cons.mp hb with rfl | hb2
      · exact Or.inr rfl
      · exact paths_bits_valid r e0 he0 b hb2

/-- A path recorded for a symbol really leads from the node to a leaf
carrying that symbol. -/
theorem paths_walk : ∀ (n : Node) (c : Char) (p : List Char), (c, p) ∈ n.paths →
    ∃ f, n.walk p = some (Node.leaf f c)
  | .leaf f c0, c, p, h => by
    simp only [Node.paths, List.mem_singleton, Prod.mk.injEq] at h
    obtain ⟨rfl, rfl⟩ := h
    exact ⟨f, rfl⟩
  | .internal f l r, c, p, h => by
    rw [Node.paths] at h
    rcases List.mem_append.mp h with h2 | h2
    · obtain ⟨e0, he0, heq⟩ := List.mem_map.mp h2
      obtain ⟨rfl, rfl⟩ : c = e0.1 ∧ p = '0' :: e0.2 := by
        constructor <;> [exact congrArg Prod.fst heq.symm; exact congrArg Prod.snd heq.symm]
      obtain ⟨f0, hw⟩ := paths_walk l e0.1 e0.2 (by rwa [← Prod.mk.eta (p := e0)] at he0)
      exact ⟨f0, by rw [Node.walk, if_pos rfl]; exact hw⟩
    · obtain ⟨e0, he0, heq⟩ := List.mem_map.mp h2
      obtain ⟨rfl, rfl⟩ : c = e0.1 ∧ p = '1' :: e0.2 := by
        constructor <;> [exact congrArg Prod.fst heq.symm; exact congrArg Prod.snd heq.symm]
      obtain ⟨f0, hw⟩ := paths_walk r e0.1 e0.2 (by rwa [← Prod.mk.eta (p := e0)] at he0)
      exact ⟨f0, by rw [Node.walk, if_neg (by decide)]; exact hw⟩

/-! ## Association list lookups -/

theorem lookup_mem {β : Type} : ∀ (l : List (Char × β)) (k : Char) (v : β),
    l.lookup k = some v → (k, v) ∈ l
  | [], k, v, h => by simp [List.lookup] at h
  | (a, b) :: t, k, v, h => by
    rw [List.lookup] at h
    cases hka : (k == a) with
    | true =>
      rw [hka] at h
      simp only [Option.some.injEq] at h
      subst h
      have hke : k = a := by simpa using hka
      subst hke
      simp
    | false =>
      rw [hka] at h
      simp only at h
      exact List.mem_cons_of_mem _ (lookup_mem t k v h)

theorem lookup_isSome_of_mem {β : Type} : ∀ (l : List (Char × β)) (k : Char),
    k ∈ l.map Prod.fst → (l.lookup k).isSome = true
  | [], k, h => by simp at h
  | (a, b) :: t, k, h => by
    cases hka : (k == a) with
    | true =>
      rw [List.lookup, hka]
      rfl
    | false =>
      rw [List.lookup, hka]
      simp only
      apply lookup_isSome_of_mem t k
      have hne : k ≠ a := by simpa using hka
      rcases List.mem_map.mp h with ⟨p, hp, hfst⟩
      rcases List.mem_cons.mp hp with heq | hp2
      · subst heq
        exact absurd hfst.symm hne
      · exact List.mem_map.mpr ⟨p, hp2, hfst⟩

/-! ## Single-step decode lemmas -/

theorem decode_invalid (t : HuffmanTree) (bit : Char) (hb : ¬ (bit = '0' ∨ bit = '1')) :
    t.decode bit = (.error .InvalidInput, t) := by
  rw [HuffmanTree.decode, if_pos hb]

theorem decode_uninit (tbl : List (Char × List Char)) (cn : Option Node) (bit : Char)
    (hb : bit = '0' ∨ bit = '1') :
    HuffmanTree.decode ⟨none, tbl, cn⟩ bit = (.error .UninitializedTree, ⟨none, tbl, cn⟩) := by
  rw [HuffmanTree.decode, if_neg (not_not_intro hb)]

theorem decode_root_leaf (f : Nat) (c : Char) (tbl : List (Char × List Char)) (m : Node)
    (bit : Char) (hb : bit = '0' ∨ bit = '1') :
    HuffmanTree.decode ⟨some (Node.leaf f c), tbl, some m⟩ bit =
      (.ok (true, some c), ⟨some (Node.leaf f c), tbl, some m⟩) := by
  rw [HuffmanTree.decode, if_neg (not_not_intro hb)]
  rfl

theorem decode_adv (r : Node) (hr : r.is_leaf = false) (tbl : List (Char × List Char))
    (fm : Nat) (ml mr : Node) (bit : Char) (hb : bit = '0' ∨ bit = '1') :
    HuffmanTree.decode ⟨some r, tbl, some (Node.internal fm ml mr)⟩ bit =
      (if (if bit = '0' then ml else mr).is_leaf
        then (.ok (true, (if bit = '0' then ml else mr).char), ⟨some r, tbl, some r⟩)
        else (.ok (false, none), ⟨some r, tbl, some (if bit = '0' then ml else mr)⟩)) := by
  rw [HuffmanTree.decode, if_neg (not_not_intro hb)]
  simp only [Option.getD_some, hr, Bool.false_eq_true, if_false]
  by_cases h0 : bit = '0'
  · subst h0
    rfl
  · have h1 : bit = '1' := hb.resolve_left h0
    subst h1
    rfl

theorem walk_append : ∀ (q p : List Char) (n : Node),
    n.walk (q ++ p) = (n.walk q).bind (fun m => m.walk p)
  | [], p, n => by simp [Node.walk]
  | b :: q', p, n => by
    cases n with
    | leaf f c => simp [Node.walk]
    | internal f l r =>
      rw [List.cons_append, Node.walk, Node.walk]
      exact walk_append q' p (if b = '0' then l else r)

/-- Feeding the bits of a root-to-leaf path (then more bits) to the decoding
loop emits exactly that leaf's symbol and passes the remaining bits on with
the cursor reset to the root. -/
theorem decodeTextLoop_path (r : Node) (hr : r.is_leaf = false)
    (tbl : List (Char × List Char)) :
    ∀ (p q : List Char) (m : Node) (f : Nat) (c : Char) (rest acc : List Char),
      (∀ b ∈ p, b = '0' ∨ b = '1') →
      r.walk q = some m → m.is_leaf = false →
      r.walk (q ++ p) = some (Node.leaf f c) →
      decodeTextLoop ⟨some r, tbl, some m⟩ (p ++ rest) acc =
        decodeTextLoop ⟨some r, tbl, some r⟩ rest (acc ++ [c])
  | [], q, m, f, c, rest, acc, hv, hq, hm, hqp => by
    rw [List.append_nil] at hqp
    rw [hq] at hqp
    simp only [Option.some.injEq] at hqp
    rw [hqp] at hm
    simp [Node.is_leaf] at hm
  | b :: p', q, m, f, c, rest, acc, hv, hq, hm, hqp => by
    cases m with
    | leaf fm cm => simp [Node.is_leaf] at hm
    | internal fm ml mr =>
      have hb : b = '0' ∨ b = '1' := hv b (by simp)
      have hchild : r.walk (q ++ [b]) = some (if b = '0' then ml else mr) := by
        rw [walk_append, hq]
        simp [Node.walk]
      have hwalkp' : (if b = '0' then ml else mr).walk p' = some (Node.leaf f c) := by
        rw [show q ++ b :: p' = (q ++ [b]) ++ p' by simp] at hqp
        rw [walk_append, hchild] at hqp
        simpa using hqp
      rw [List.cons_append, decodeTextLoop]
      rw [decode_adv r hr tbl fm ml mr b hb]
      cases hleaf : (if b = '0' then ml else mr).is_leaf with
      | true =>
        have hchildleaf : (if b = '0' then ml else mr) = Node.leaf f c := by
          cases hchild2 : (if b = '0' then ml else mr) with
          | leaf f2 c2 =>
            cases p' with
            | nil =>
              rw [hchild2] at hwalkp'
              simpa [Node.walk] using hwalkp'
            | cons b2 p2 =>
              rw [hchild2] at hwalkp'
              simp [Node.walk] at hwalkp'
          | internal f2 l2 r2 =>
            rw [hchild2] at hleaf
            simp [Node.is_leaf] at hleaf
        have hp' : p' = [] := by
          cases p' with
          | nil => rfl
          | cons b2 p2 =>
            rw [hchildleaf] at hwalkp'
            simp [Node.walk] at hwalkp'
        subst hp'
        rw [hchildleaf]
        simp [Node.char]
      | false =>
        simp only [Bool.false_eq_true, if_false]
        exact decodeTextLoop_path r hr tbl p' (q ++ [b]) (if b = '0' then ml else mr)
          f c rest acc (fun b2 hb2 => hv b2 (by simp [hb2])) hchild hleaf
          (by rw [show (q ++ [b]) ++ p' = q ++ b :: p' by simp]; exact hqp)

/-! ## Encoding and the round trip -/

theorem encode_text_eq (t : HuffmanTree) : ∀ (S : List Char),
    (∀ c ∈ S, c ∈ t.code_table.map Prod.fst) →
    t.encode_text S = .ok (S.flatMap (fun c => (t.code_table.lookup c).getD []))
  | [], _ => rfl
  | c :: rest, h => by
    rw [HuffmanTree.encode_text, HuffmanTree.encode]
    have hs := lookup_isSome_of_mem t.code_table c (h c (by simp))
    cases hl : t.code_table.lookup c with
    | none => rw [hl] at hs; simp at hs
    | some code =>
      dsimp only
      rw [encode_text_eq t rest (fun c2 hc2 => h c2 (by simp [hc2]))]
      dsimp only
      simp only [List.flatMap_cons, hl, Option.getD_some]

theorem decodeTextLoop_encoded (r : Node) (hr : r.is_leaf = false)
    (tbl : List (Char × List Char)) :
    ∀ (S rest acc : List Char),
      (∀ c ∈ S, ∃ p, tbl.lookup c = some p ∧ (c, p) ∈ r.paths) →
      decodeTextLoop ⟨some r, tbl, some r⟩
          ((S.flatMap (fun c => (tbl.lookup c).getD [])) ++ rest) acc =
        decodeTextLoop ⟨some r, tbl, some r⟩ rest (acc ++ S)
  | [], rest, acc, _ => by simp
  | c :: S', rest, acc, h => by
    obtain ⟨p, hlk, hmem⟩ := h c (by simp)
    obtain ⟨f, hwalk⟩ := paths_walk r c p hmem
    have hflat : (c :: S').flatMap (fun c2 => (tbl.lookup c2).getD []) ++ rest =
        p ++ ((S'.flatMap (fun c2 => (tbl.lookup c2).getD [])) ++ rest) := by
      simp [hlk]
    rw [hflat]
    rw [decodeTextLoop_path r hr tbl p [] r f c _ acc
      (fun b hb => paths_bits_valid r (c, p) hmem b hb) (by simp [Node.walk]) hr
      (by simpa using hwalk)]
    rw [decodeTextLoop_encoded r hr tbl S' rest (acc ++ [c])
      (fun c2 hc2 => h c2 (by simp [hc2]))]
    simp

/-! ## Decoding a strict prefix of a code completes nothing -/

theorem decodeTextLoop_incomplete (r : Node) (hr : r.is_leaf = false)
    (tbl : List (Char × List Char)) :
    ∀ (pp q : List Char) (m m2 : Node) (acc : List Char),
      (∀ b ∈ pp, b = '0' ∨ b = '1') →
      r.walk q = some m → m.is_leaf = false →
      m.walk pp = some m2 → m2.is_leaf = false →
      decodeTextLoop ⟨some r, tbl, some m⟩ pp acc = (.ok acc, ⟨some r, tbl, some m2⟩)
  | [], q, m, m2, acc, _, _, _, hw, _ => by
    simp only [Node.walk, Option.some.injEq] at hw
    rw [← hw]
    rfl
  | b :: pp', q, m, m2, acc, hv, hq, hm, hw, hm2 => by
    cases m with
    | leaf fm cm => simp [Node.is_leaf] at hm
    | internal fm ml mr =>
      have hb : b = '0' ∨ b = '1' := hv b (by simp)
      rw [Node.walk] at hw
      have hchildwalk : (if b = '0' then ml else mr).walk pp' = some m2 := hw
      have hchildint : (if b = '0' then ml else mr).is_leaf = false := by
        cases hc2 : (if b = '0' then ml else mr) with
        | internal f2 l2 r2 => rfl
        | leaf f2 c2 =>
          rw [hc2] at hchildwalk
          cases pp' with
          | nil =>
            simp only [Node.walk, Option.some.injEq] at hchildwalk
            rw [← hchildwalk] at hm2
            simp [Node.is_leaf] at hm2
          | cons b2 p2 => simp [Node.walk] at hchildwalk
      have hchild : r.walk (q ++ [b]) = some (if b = '0' then ml else mr) := by
        rw [walk_append, hq]
        simp [Node.walk]
      rw [decodeTextLoop]
      rw [decode_adv r hr tbl fm ml mr b hb]
      rw [hchildint]
      simp only [Bool.false_eq_true, if_false]
      exact decodeTextLoop_incomplete r hr tbl pp' (q ++ [b]) (if b = '0' then ml else mr)
        m2 acc (fun b2 hb2 => hv b2 (by simp [hb2])) hchild hchildint hchildwalk hm2

theorem isPrefixOf_iff_exists : ∀ (p q : List Char),
    p.isPrefixOf q = true ↔ ∃ s, q = p ++ s
  | [], q => by simp [List.isPrefixOf]
  | a :: p', [] => by simp [List.isPrefixOf]
  | a :: p', b :: q' => by
    simp only [List.isPrefixOf, Bool.and_eq_true, beq_iff_eq]
    rw [isPrefixOf_iff_exists p' q']
    constructor
    · rintro ⟨rfl, s, rfl⟩
      exact ⟨s, rfl⟩
    · rintro ⟨s, hs⟩
      rw [List.cons_append] at hs
      obtain ⟨rfl, rfl⟩ : b = a ∧ q' = p' ++ s := by
        constructor
        · exact (List.cons.injEq .. ▸ hs).1
        · exact (List.cons.injEq .. ▸ hs).2
      exact ⟨rfl, s, rfl⟩

/-! ## decode_text as collected single decode steps -/

theorem decodeTextLoop_collect : ∀ (bits : List Char) (t : HuffmanTree) (acc : List Char),
    decodeTextLoop t bits acc =
      ((collectSteps t bits).1.map (fun s => acc ++ s), (collectSteps t bits).2)
  | [], t, acc => by simp [decodeTextLoop, collectSteps, Except.map]
  | b :: rest, t, acc => by
    rw [decodeTextLoop, collectSteps]
    cases hd : t.decode b with
    | mk res t1 =>
      cases res with
      | error e => simp [Except.map]
      | ok pr =>
        obtain ⟨ok, ch⟩ := pr
        dsimp only
        rw [decodeTextLoop_collect rest t1 (if ok = true then acc ++ ch.toList else acc)]
        cases hcol : collectSteps t1 rest with
        | mk res2 t2 =>
          cases res2 with
          | error e => simp [Except.map]
          | ok syms =>
            simp only [Except.map]
            cases ok with
            | true => simp
            | false => simp

/-! ## The single-leaf (one-symbol) tree -/

theorem decodeTextLoop_leaf_root (f : Nat) (c : Char) (tbl : List (Char × List Char))
    (cur : Node) :
    ∀ (bits acc : List Char), (∀ b ∈ bits, b = '0' ∨ b = '1') →
      decodeTextLoop ⟨some (Node.leaf f c), tbl, some cur⟩ bits acc =
        (.ok (acc ++ List.replicate bits.length c), ⟨some (Node.leaf f c), tbl, some cur⟩)
  | [], acc, _ => by simp [decodeTextLoop]
  | b :: rest, acc, hv => by
    rw [decodeTextLoop, decode_root_leaf f c tbl cur b (hv b (by simp))]
    dsimp only
    rw [if_pos rfl]
    rw [show (some c).toList = [c] from rfl]
    rw [decodeTextLoop_leaf_root f c tbl cur rest (acc ++ [c])
      (fun b2 hb2 => hv b2 (by simp [hb2]))]
    simp [List.replicate_succ]

theorem encode_text_single (t : HuffmanTree) (c : Char)
    (hc : t.code_table = [(c, ['0'])]) :
    ∀ n : Nat, t.encode_text (List.replicate n c) = .ok (List.replicate n '0')
  | 0 => rfl
  | n + 1 => by
    rw [List.replicate_succ, HuffmanTree.encode_text, HuffmanTree.encode, hc]
    rw [show (List.lookup c [(c, ['0'])]) = some ['0'] by simp [List.lookup]]
    dsimp only
    rw [encode_text_single t c hc n]
    simp [List.replicate_succ]

/-! ## Remaining helpers -/

theorem build_single (c : Char) (n : Nat) :
    HuffmanTree.build_from_frequencies [(c, n)] =
      .ok ⟨some (Node.leaf n c), [(c, ['0'])], some (Node.leaf n c)⟩ := rfl

theorem internal_of_two_leaves (r : Node) (h2 : 2 ≤ r.leafList.length) :
    r.is_leaf = false := by
  cases r with
  | leaf f c => simp [Node.leafList] at h2
  | internal f l rr => rfl

theorem encode_text_ok_isSome (t : HuffmanTree) : ∀ (S bs : List Char),
    t.encode_text S = .ok bs → ∀ c ∈ S, (t.code_table.lookup c).isSome = true
  | [], bs, _ => by simp
  | c :: rest, bs, h => by
    intro c2 hc2
    rw [HuffmanTree.encode_text, HuffmanTree.encode] at h
    cases hl : t.code_table.lookup c with
    | none => rw [hl] at h; simp at h
    | some code =>
      rw [hl] at h
      dsimp only at h
      rcases List.mem_cons.mp hc2 with rfl | hc3
      · rw [hl]; rfl
      · cases he : t.encode_text rest with
        | error e => rw [he] at h; simp at h
        | ok more => exact encode_text_ok_isSome t rest more he c2 hc3

theorem getD_append_length {α : Type} (d : α) :
    ∀ (l : List α) (x : α), (l ++ [x]).getD l.length d = x
  | [], x => rfl
  | y :: t, x => getD_append_length d t x

theorem getD_append_left {α : Type} (d : α) :
    ∀ (l l2 : List α) (i : Nat), i < l.length → (l ++ l2).getD i d = l.getD i d
  | [], l2, i, h => by simp at h
  | y :: t, l2, 0, _ => rfl
  | y :: t, l2, i + 1, h => getD_append_left d t l2 i (by simpa using h)

/-- The fields of a tree built from a mapping with at least two entries,
with the code table expressed through `Node.paths`. -/
theorem build_spec_paths (fd : List (Char × Nat)) (t : HuffmanTree)
    (hnd : (fd.map Prod.fst).Nodup) (hlen : 2 ≤ fd.length)
    (hb : HuffmanTree.build_from_frequencies fd = .ok t) :
    ∃ r, t = ⟨some r, r.paths, some r⟩ ∧ r.is_leaf = false ∧
      (r.leafList).Perm fd ∧ r.conserv = true ∧
      (r.leafList.map Prod.fst).Nodup := by
  obtain ⟨r, h1, h2, h3, h4, h5⟩ := build_spec fd t hlen hb
  have hperm2 : (r.leafList.map Prod.fst).Perm (fd.map Prod.fst) := h4.map Prod.fst
  have hndr : (r.leafList.map Prod.fst).Nodup := hperm2.symm.nodup hnd
  have hrleaf : r.is_leaf = false := by
    apply internal_of_two_leaves
    have := h4.length_eq
    have : r.leafList.length = fd.length := by
      have := h4.length_eq
      omega
    omega
  have hpaths : t.code_table = r.paths := by
    cases r with
    | leaf f c => simp [Node.is_leaf] at hrleaf
    | internal f l rr => rw [h3, build_code_table_internal f l rr hndr]
  refine ⟨r, ?_, hrleaf, h4, h5, hndr⟩
  cases t
  simp only [HuffmanTree.mk.injEq]
  exact ⟨h1, hpaths, h2⟩

/-! ## Claim theorems -/

/-- C3: after a successful `build_from_frequencies` on a non-empty mapping,
every internal node's frequency is the sum of its children's frequencies
(`Node.conserv`), and the root's frequency is the total of the input counts. -/
theorem c3_frequency_conservation (fd : List (Char × Nat)) (t : HuffmanTree)
    (hfd : fd ≠ []) (hb : HuffmanTree.build_from_frequencies fd = .ok t) :
    ∃ r, t.root = some r ∧ r.conserv = true ∧ r.freq = (fd.map Prod.snd).sum := by
  by_cases hlen : fd.length = 1
  · obtain ⟨p, rfl⟩ := List.length_eq_one.mp hlen
    obtain ⟨c, n⟩ := p
    rw [build_single] at hb
    cases hb
    exact ⟨Node.leaf n c, rfl, rfl, by simp [Node.freq]⟩
  · have hlen2 : 2 ≤ fd.length := by
      have : 1 ≤ fd.length := List.length_pos.mpr hfd
      omega
    obtain ⟨r, h1, h2, h3, h4, h5⟩ := build_spec fd t hlen2 hb
    refine ⟨r, h1, h5, ?_⟩
    rw [conserv_freq_sum r h5]
    exact (h4.map Prod.snd).sum_eq

/-- Witness for C3 at the concrete input `{'A': 2}`. -/
theorem c3_witness : [(('A' : Char), (2 : Nat))] ≠ [] ∧
    ∃ r, (HuffmanTree.mk (some (Node.leaf 2 'A')) [('A', ['0'])]
      (some (Node.leaf 2 'A'))).root = some r ∧ r.conserv = true ∧
      r.freq = ([(('A' : Char), (2 : Nat))].map Prod.snd).sum :=
  ⟨by decide, c3_frequency_conservation [('A', 2)] _ (by decide) rfl⟩

/-- C4: building from a one-entry mapping gives a lone-leaf root, the code
table `{symbol: "0"}`, and every decode call with bit `'0'` or `'1'` returns
`(complete := true, that symbol)` leaving the state (hence the cursor)
unchanged. -/
theorem c4_single_symbol (c : Char) (n : Nat) (t : HuffmanTree)
    (hb : HuffmanTree.build_from_frequencies [(c, n)] = .ok t) :
    t.root = some (Node.leaf n c) ∧ t.code_table = [(c, ['0'])] ∧
    ∀ bit, (bit = '0' ∨ bit = '1') → t.decode bit = (.ok (true, some c), t) := by
  rw [build_single] at hb
  cases hb
  exact ⟨rfl, rfl, fun bit hbit => decode_root_leaf n c [(c, ['0'])] (Node.leaf n c) bit hbit⟩

/-- Witness for C4 at the concrete input `{'A': 2}`. -/
theorem c4_witness :
    (HuffmanTree.mk (some (Node.leaf 2 'A')) [('A', ['0'])] (some (Node.leaf 2 'A'))).root =
        some (Node.leaf 2 'A') ∧
      (HuffmanTree.mk (some (Node.leaf 2 'A')) [('A', ['0'])]
        (some (Node.leaf 2 'A'))).code_table = [('A', ['0'])] ∧
      ∀ bit, (bit = '0' ∨ bit = '1') →
        (HuffmanTree.mk (some (Node.leaf 2 'A')) [('A', ['0'])]
          (some (Node.leaf 2 'A'))).decode bit =
          (.ok (true, some 'A'),
            HuffmanTree.mk (some (Node.leaf 2 'A')) [('A', ['0'])] (some (Node.leaf 2 'A'))) :=
  c4_single_symbol 'A' 2 _ rfl

/-- C5 counterexample: `encode` on a freshly constructed (never built)
instance raises the unknown-symbol error, not the uninitialized-tree error:
`encode` checks only the (empty) code table and never `self.root`. -/
theorem c5_counterexample :
    HuffmanTree.init.encode 'A' = .error .UnknownSymbol ∧
    (Except.error PyError.UnknownSymbol : Except PyError (List Char)) ≠
      .error .UninitializedTree :=
  ⟨rfl, by simp⟩

/-- C5 (amended): on a never-built instance, `decode` with a valid bit fails
with `UninitializedTree`; `encode`, however, fails with `UnknownSymbol`
(every symbol is absent from the still-empty code table). -/
theorem c5_amended :
    (∀ bit, (bit = '0' ∨ bit = '1') →
      HuffmanTree.init.decode bit = (.error .UninitializedTree, HuffmanTree.init)) ∧
    (∀ ch, HuffmanTree.init.encode ch = .error .UnknownSymbol) := by
  constructor
  · intro bit hbit
    exact decode_uninit [] none bit hbit
  · intro ch
    rfl

/-- Witness for the amended C5 at bit `'0'` and symbol `'A'`. -/
theorem c5_witness :
    HuffmanTree.init.decode '0' = (.error .UninitializedTree, HuffmanTree.init) ∧
    HuffmanTree.init.encode 'A' = .error .UnknownSymbol :=
  ⟨c5_amended.1 '0' (Or.inl rfl), c5_amended.2 'A'⟩

/-- C6: on a built tree, decoding a bit outside `{'0','1'}` fails with
`InvalidInput` and returns the state completely unchanged, so any subsequent
decode behaves as if the failed call had never happened. -/
theorem c6_invalid_bit (fd : List (Char × Nat)) (t : HuffmanTree) (bit : Char)
    (hb : HuffmanTree.build_from_frequencies fd = .ok t)
    (hbit : ¬ (bit = '0' ∨ bit = '1')) :
    t.decode bit = (.error .InvalidInput, t) ∧
    ∀ bit2, ((t.decode bit).2).decode bit2 = t.decode bit2 := by
  refine ⟨decode_invalid t bit hbit, ?_⟩
  intro bit2
  rw [decode_invalid t bit hbit]

/-- Witness for C6: the tree built from `{'A': 2}` and the invalid bit `'2'`. -/
theorem c6_witness :
    (HuffmanTree.mk (some (Node.leaf 2 'A')) [('A', ['0'])]
        (some (Node.leaf 2 'A'))).decode '2' =
      (.error .InvalidInput,
        HuffmanTree.mk (some (Node.leaf 2 'A')) [('A', ['0'])] (some (Node.leaf 2 'A'))) ∧
    ∀ bit2, (((HuffmanTree.mk (some (Node.leaf 2 'A')) [('A', ['0'])]
        (some (Node.leaf 2 'A'))).decode '2').2).decode bit2 =
      (HuffmanTree.mk (some (Node.leaf 2 'A')) [('A', ['0'])]
        (some (Node.leaf 2 'A'))).decode bit2 :=
  c6_invalid_bit [('A', 2)] _ '2' rfl (by decide)

/-- C7: on a built tree, `decode_text` equals the incremental procedure
(reset, then single-step `decode` on each bit, collecting every complete
symbol in order), including the final decoder state and any error. -/
theorem c7_incremental_equiv (fd : List (Char × Nat)) (t : HuffmanTree) (bits : List Char)
    (hb : HuffmanTree.build_from_frequencies fd = .ok t) :
    t.decode_text bits = collectSteps t.reset_decoder bits := by
  rw [HuffmanTree.decode_text, decodeTextLoop_collect]
  cases hcol : collectSteps t.reset_decoder bits with
  | mk res t2 =>
    cases res with
    | error e => simp [Except.map]
    | ok syms => simp [Except.map]

/-- Witness for C7: the tree built from `{'A': 2}` on the bits `"01"`. -/
theorem c7_witness :
    (HuffmanTree.mk (some (Node.leaf 2 'A')) [('A', ['0'])]
        (some (Node.leaf 2 'A'))).decode_text ['0', '1'] =
      collectSteps (HuffmanTree.mk (some (Node.leaf 2 'A')) [('A', ['0'])]
        (some (Node.leaf 2 'A'))).reset_decoder ['0', '1'] :=
  c7_incremental_equiv [('A', 2)] _ ['0', '1'] rfl

/-- C8: building twice from the same frequency mapping (same entry order)
yields identical code tables — the build is a deterministic function of the
ordered input. -/
theorem c8_deterministic (fd : List (Char × Nat)) (t1 t2 : HuffmanTree)
    (h1 : HuffmanTree.build_from_frequencies fd = .ok t1)
    (h2 : HuffmanTree.build_from_frequencies fd = .ok t2) :
    t1.code_table = t2.code_table := by
  rw [h1] at h2
  cases h2
  rfl

/-- Witness for C8 at the concrete input `{'A': 2}`. -/
theorem c8_witness :
    (HuffmanTree.mk (some (Node.leaf 2 'A')) [('A', ['0'])]
        (some (Node.leaf 2 'A'))).code_table =
      (HuffmanTree.mk (some (Node.leaf 2 'A')) [('A', ['0'])]
        (some (Node.leaf 2 'A'))).code_table :=
  c8_deterministic [('A', 2)] _ _ rfl rfl

/-- C9: `get_code_table` returns a copy.  At the dict-object level, the
returned reference is a fresh object (never the instance's own table), its
contents initially agree with the instance's table, and mutating the
returned object leaves the instance's table — and therefore the behaviour of
subsequent `encode` calls through it — unchanged. -/
theorem c9_get_code_table_copy (h : PyDictHeap) (i : Nat) (hi : i < h.dicts.length) :
    (get_code_table h i).2 ≠ i ∧
    (get_code_table h i).1.dicts.getD (get_code_table h i).2 [] = h.dicts.getD i [] ∧
    (∀ d2, ((get_code_table h i).1.setDict (get_code_table h i).2 d2).dicts.getD i [] =
      h.dicts.getD i []) ∧
    (∀ d2 root cn ch,
      HuffmanTree.encode ⟨root,
        ((get_code_table h i).1.setDict (get_code_table h i).2 d2).dicts.getD i [], cn⟩ ch =
      HuffmanTree.encode ⟨root, h.dicts.getD i [], cn⟩ ch) := by
  have h2 : (get_code_table h i).2 = h.dicts.length := rfl
  have hne : (get_code_table h i).2 ≠ i := by rw [h2]; omega
  have hmut : ∀ d2, ((get_code_table h i).1.setDict
      (get_code_table h i).2 d2).dicts.getD i [] = h.dicts.getD i [] := by
    intro d2
    show ((h.dicts ++ [h.dicts.getD i []]).set h.dicts.length d2).getD i [] = _
    rw [getD_set_ne [] _ h.dicts.length i d2 (by omega)]
    exact getD_append_left [] h.dicts _ i hi
  refine ⟨hne, ?_, hmut, ?_⟩
  · show (h.dicts ++ [h.dicts.getD i []]).getD h.dicts.length [] = _
    exact getD_append_length [] h.dicts (h.dicts.getD i [])
  · intro d2 root cn ch
    rw [hmut d2]

/-- Witness for C9 on a one-dict heap. -/
theorem c9_witness :
    (get_code_table ⟨[[('a', ['0'])]]⟩ 0).2 ≠ 0 ∧
    (get_code_table ⟨[[('a', ['0'])]]⟩ 0).1.dicts.getD
        (get_code_table ⟨[[('a', ['0'])]]⟩ 0).2 [] =
      (PyDictHeap.mk [[('a', ['0'])]]).dicts.getD 0 [] ∧
    (∀ d2, ((get_code_table ⟨[[('a', ['0'])]]⟩ 0).1.setDict
        (get_code_table ⟨[[('a', ['0'])]]⟩ 0).2 d2).dicts.getD 0 [] =
      (PyDictHeap.mk [[('a', ['0'])]]).dicts.getD 0 []) ∧
    (∀ d2 root cn ch,
      HuffmanTree.encode ⟨root,
        ((get_code_table ⟨[[('a', ['0'])]]⟩ 0).1.setDict
          (get_code_table ⟨[[('a', ['0'])]]⟩ 0).2 d2).dicts.getD 0 [], cn⟩ ch =
      HuffmanTree.encode ⟨root, (PyDictHeap.mk [[('a', ['0'])]]).dicts.getD 0 [], cn⟩ ch) :=
  c9_get_code_table_copy ⟨[[('a', ['0'])]]⟩ 0 (by decide)

/-- C1: round trip.  For a tree built from a non-empty mapping with distinct
keys and any non-empty text over those symbols, `decode_text (encode_text S)`
returns `S`. -/
theorem c1_round_trip (fd : List (Char × Nat)) (S : List Char) (t : HuffmanTree)
    (hnd : (fd.map Prod.fst).Nodup) (hfd : fd ≠ []) (hS : S ≠ [])
    (hSin : ∀ c ∈ S, c ∈ fd.map Prod.fst)
    (hb : HuffmanTree.build_from_frequencies fd = .ok t) :
    ∃ bs, t.encode_text S = .ok bs ∧ (t.decode_text bs).1 = .ok S := by
  by_cases hlen : fd.length = 1
  · obtain ⟨p, rfl⟩ := List.length_eq_one.mp hlen
    obtain ⟨c, n⟩ := p
    rw [build_single] at hb
    cases hb
    have hSrep : S = List.replicate S.length c := by
      apply List.eq_replicate_of_mem
      intro b hbS
      have := hSin b hbS
      simpa using this
    refine ⟨List.replicate S.length '0', ?_, ?_⟩
    · conv_lhs => rw [hSrep]
      exact encode_text_single _ c rfl S.length
    · rw [HuffmanTree.decode_text]
      rw [show (HuffmanTree.mk (some (Node.leaf n c)) [(c, ['0'])]
        (some (Node.leaf n c))).reset_decoder =
        ⟨some (Node.leaf n c), [(c, ['0'])], some (Node.leaf n c)⟩ from rfl]
      rw [decodeTextLoop_leaf_root n c [(c, ['0'])] (Node.leaf n c)
        (List.replicate S.length '0') []
        (fun b hb2 => Or.inl (List.eq_of_mem_replicate hb2))]
      simp only [List.nil_append, List.length_replicate]
      rw [← hSrep]
  · have hlen2 : 2 ≤ fd.length := by
      have : 1 ≤ fd.length := List.length_pos.mpr hfd
      omega
    obtain ⟨r, ht, hrleaf, hperm, hcons, hndr⟩ := build_spec_paths fd t hnd hlen2 hb
    subst ht
    have hkeys : ∀ c ∈ S, c ∈ (Node.paths r).map Prod.fst := by
      intro c hc
      rw [paths_fst]
      exact ((hperm.map Prod.fst).mem_iff).mpr (hSin c hc)
    refine ⟨S.flatMap (fun c => ((Node.paths r).lookup c).getD []), ?_, ?_⟩
    · exact encode_text_eq _ S hkeys
    · rw [HuffmanTree.decode_text]
      rw [show (HuffmanTree.mk (some r) r.paths (some r)).reset_decoder =
        ⟨some r, r.paths, some r⟩ from rfl]
      have hlk : ∀ c ∈ S, ∃ p, (Node.paths r).lookup c = some p ∧ (c, p) ∈ r.paths := by
        intro c hc
        have hsome := lookup_isSome_of_mem (Node.paths r) c (hkeys c hc)
        cases hl : (Node.paths r).lookup c with
        | none => rw [hl] at hsome; simp at hsome
        | some p => exact ⟨p, rfl, lookup_mem _ c p hl⟩
      have hrun := decodeTextLoop_encoded r hrleaf (Node.paths r) S [] [] hlk
      rw [show S.flatMap (fun c => ((Node.paths r).lookup c).getD []) =
        S.flatMap (fun c => ((Node.paths r).lookup c).getD []) ++ [] by simp] 
      rw [hrun]
      simp [decodeTextLoop]

/-- Witness for C1: the tree built from `{'A': 2}` and the text `"AA"`. -/
theorem c1_witness :
    ([(('A' : Char), (2 : Nat))].map Prod.fst).Nodup ∧
    (['A', 'A'] : List Char) ≠ [] ∧
    (∀ c ∈ (['A', 'A'] : List Char), c ∈ [(('A' : Char), (2 : Nat))].map Prod.fst) ∧
    ∃ bs, (HuffmanTree.mk (some (Node.leaf 2 'A')) [('A', ['0'])]
        (some (Node.leaf 2 'A'))).encode_text ['A', 'A'] = .ok bs ∧
      ((HuffmanTree.mk (some (Node.leaf 2 'A')) [('A', ['0'])]
        (some (Node.leaf 2 'A'))).decode_text bs).1 = .ok ['A', 'A'] :=
  ⟨by decide, by decide, by decide,
    c1_round_trip [('A', 2)] ['A', 'A'] _ (by decide) (by decide) (by decide)
      (by decide) rfl⟩

/-- C2: for a tree built from a mapping with at least two distinct symbols,
the code table covers exactly the input symbols, every code is non-empty, and
no code is a prefix of another. -/
theorem c2_prefix_free (fd : List (Char × Nat)) (t : HuffmanTree)
    (hnd : (fd.map Prod.fst).Nodup) (hlen : 2 ≤ fd.length)
    (hb : HuffmanTree.build_from_frequencies fd = .ok t) :
    (t.code_table.map Prod.fst).Perm (fd.map Prod.fst) ∧
    (∀ e ∈ t.code_table, e.2 ≠ []) ∧
    t.code_table.Pairwise
      (fun a b => a.2.isPrefixOf b.2 = false ∧ b.2.isPrefixOf a.2 = false) := by
  obtain ⟨r, ht, hrleaf, hperm, hcons, hndr⟩ := build_spec_paths fd t hnd hlen hb
  subst ht
  cases r with
  | leaf f c => simp [Node.is_leaf] at hrleaf
  | internal f l rr =>
    refine ⟨?_, ?_, ?_⟩
    · show ((Node.internal f l rr).paths.map Prod.fst).Perm _
      rw [paths_fst]
      exact hperm.map Prod.fst
    · exact paths_internal_code_ne_nil f l rr
    · exact paths_pairwise_not_isPrefixOf (Node.internal f l rr)

/-- The tree the program builds from `{'a': 1, 'b': 2}`. -/
def tAB : HuffmanTree :=
  ⟨some (.internal 3 (.leaf 1 'a') (.leaf 2 'b')),
    [('a', ['0']), ('b', ['1'])],
    some (.internal 3 (.leaf 1 'a') (.leaf 2 'b'))⟩

theorem build_ab : HuffmanTree.build_from_frequencies [('a', 1), ('b', 2)] = .ok tAB := by
  simp [HuffmanTree.build_from_frequencies, heapify, heapifyFrom, siftup, heappop, heappush,
    siftdown, siftupLoop_eq_stop, siftupLoop_eq_left, siftupLoop_eq_right,
    siftdownLoop_eq_stop, siftdownLoop_eq_move, siftdownLoop_eq_settle,
    buildLoop_eq_stop, buildLoop_unfold, build_code_table, HuffmanTree.traverse, dictSet,
    Node.freq, tAB]

/-- Witness for C2: the two-symbol build `{'a': 1, 'b': 2}`. -/
theorem c2_witness :
    2 ≤ [(('a' : Char), (1 : Nat)), ('b', 2)].length ∧
    HuffmanTree.build_from_frequencies [('a', 1), ('b', 2)] = .ok tAB ∧
    (tAB.code_table.map Prod.fst).Perm
      ([(('a' : Char), (1 : Nat)), ('b', 2)].map Prod.fst) ∧
    (∀ e ∈ tAB.code_table, e.2 ≠ []) ∧
    tAB.code_table.Pairwise
      (fun a b => a.2.isPrefixOf b.2 = false ∧ b.2.isPrefixOf a.2 = false) := by
  have h := c2_prefix_free [('a', 1), ('b', 2)] tAB (by decide) (by decide) build_ab
  exact ⟨by decide, build_ab, h.1, h.2.1, h.2.2⟩

/-- C10: `decode_text` on a bitstring consisting of an encoded text followed
by a strict prefix of some symbol's code does not fail: it returns exactly
the symbols of the encoded text, silently discarding the trailing incomplete
code; the empty bitstring decodes to the empty sequence. -/
theorem c10_trailing_partial (fd : List (Char × Nat)) (S : List Char) (t : HuffmanTree)
    (k : Char) (pk pp bs : List Char)
    (hnd : (fd.map Prod.fst).Nodup) (hfd : fd ≠ [])
    (hb : HuffmanTree.build_from_frequencies fd = .ok t)
    (hk : (k, pk) ∈ t.code_table)
    (hpre : pp.isPrefixOf pk = true) (hppne : pp ≠ pk)
    (he : t.encode_text S = .ok bs) :
    (t.decode_text (bs ++ pp)).1 = .ok S ∧ (t.decode_text []).1 = .ok [] := by
  refine ⟨?_, rfl⟩
  by_cases hlen : fd.length = 1
  · obtain ⟨p, rfl⟩ := List.length_eq_one.mp hlen
    obtain ⟨c, n⟩ := p
    rw [build_single] at hb
    cases hb
    have hkc : k = c ∧ pk = ['0'] := by
      simpa using hk
    obtain ⟨rfl, rfl⟩ := hkc
    have hpp : pp = [] := by
      obtain ⟨s, hs⟩ := (isPrefixOf_iff_exists pp ['0']).mp hpre
      cases pp with
      | nil => rfl
      | cons b pp' =>
        rw [List.cons_append] at hs
        have hb : '0' = b := (List.cons.injEq .. ▸ hs).1
        have hs2 : ([] : List Char) = pp' ++ s := (List.cons.injEq .. ▸ hs).2
        have hpp' : pp' = [] := (List.append_eq_nil.mp hs2.symm).1
        exfalso
        apply hppne
        rw [hpp', ← hb]
    subst hpp
    have hSin := encode_text_ok_isSome _ S bs he
    have hSrep : S = List.replicate S.length k := by
      apply List.eq_replicate_of_mem
      intro b hbS
      have hsome := hSin b hbS
      by_cases hbc : b = k
      · exact hbc
      · exfalso
        rw [show (HuffmanTree.mk (some (Node.leaf n k)) [(k, ['0'])]
          (some (Node.leaf n k))).code_table = [(k, ['0'])] from rfl] at hsome
        rw [List.lookup] at hsome
        rw [show (b == k) = false by simpa using hbc] at hsome
        simp [List.lookup] at hsome
    have hbs : bs = List.replicate S.length '0' := by
      have := encode_text_single
        (HuffmanTree.mk (some (Node.leaf n k)) [(k, ['0'])] (some (Node.leaf n k)))
        k rfl S.length
      rw [← hSrep] at this
      rw [he] at this
      simpa using this
    subst hbs
    rw [HuffmanTree.decode_text]
    rw [show (HuffmanTree.mk (some (Node.leaf n k)) [(k, ['0'])]
      (some (Node.leaf n k))).reset_decoder =
      ⟨some (Node.leaf n k), [(k, ['0'])], some (Node.leaf n k)⟩ from rfl]
    rw [List.append_nil]
    rw [decodeTextLoop_leaf_root n k [(k, ['0'])] (Node.leaf n k)
      (List.replicate S.length '0') []
      (fun b hb2 => Or.inl (List.eq_of_mem_replicate hb2))]
    simp only [List.nil_append, List.length_replicate]
    rw [← hSrep]
  · have hlen2 : 2 ≤ fd.length := by
      have : 1 ≤ fd.length := List.length_pos.mpr hfd
      omega
    obtain ⟨r, ht, hrleaf, hperm, hcons, hndr⟩ := build_spec_paths fd t hnd hlen2 hb
    subst ht
    have hk2 : (k, pk) ∈ r.paths := hk
    have hSin : ∀ c ∈ S, c ∈ (Node.paths r).map Prod.fst := by
      intro c hc
      have hsome := encode_text_ok_isSome _ S bs he c hc
      cases hl : (Node.paths r).lookup c with
      | none =>
        rw [show (HuffmanTree.mk (some r) r.paths (some r)).code_table = r.paths
          from rfl, hl] at hsome
        simp at hsome
      | some p => exact List.mem_map.mpr ⟨(c, p), lookup_mem _ c p hl, rfl⟩
    have hbs : bs = S.flatMap (fun c => ((Node.paths r).lookup c).getD []) := by
      have h0 := encode_text_eq (HuffmanTree.mk (some r) r.paths (some r)) S hSin
      rw [he] at h0
      simpa using h0
    subst hbs
    obtain ⟨f2, hwalkpk⟩ := paths_walk r k pk hk2
    obtain ⟨s, rfl⟩ := (isPrefixOf_iff_exists pp pk).mp hpre
    have hsne : s ≠ [] := by
      intro hs0
      rw [hs0, List.append_nil] at hppne
      exact hppne rfl
    rw [walk_append] at hwalkpk
    cases hwpp : r.walk pp with
    | none => rw [hwpp] at hwalkpk; simp at hwalkpk
    | some m3 =>
      rw [hwpp] at hwalkpk
      simp only [Option.some_bind] at hwalkpk
      have hm3 : m3.is_leaf = false := by
        cases m3 with
        | internal f3 l3 r3 => rfl
        | leaf f3 c3 =>
          cases s with
          | nil => exact absurd rfl hsne
          | cons b2 s' => simp [Node.walk] at hwalkpk
      have hlk : ∀ c ∈ S, ∃ p, (Node.paths r).lookup c = some p ∧ (c, p) ∈ r.paths := by
        intro c hc
        have hsome := lookup_isSome_of_mem (Node.paths r) c (hSin c hc)
        cases hl : (Node.paths r).lookup c with
        | none => rw [hl] at hsome; simp at hsome
        | some p => exact ⟨p, rfl, lookup_mem _ c p hl⟩
      rw [HuffmanTree.decode_text]
      rw [show (HuffmanTree.mk (some r) r.paths (some r)).reset_decoder =
        ⟨some r, r.paths, some r⟩ from rfl]
      rw [decodeTextLoop_encoded r hrleaf (Node.paths r) S pp [] hlk]
      have hvalid : ∀ b ∈ pp, b = '0' ∨ b = '1' := by
        intro b hbpp
        exact paths_bits_valid r (k, pp ++ s) hk2 b (List.mem_append.mpr (Or.inl hbpp))
      rw [decodeTextLoop_incomplete r hrleaf (Node.paths r) pp [] r m3 ([] ++ S)
        hvalid (by simp [Node.walk]) hrleaf hwpp hm3]
      simp

/-- Witness for C10: the tree built from `{'A': 2}`, the text `"A"`, and the
empty strict prefix of the code `"0"`. -/
theorem c10_witness :
    ([(('A' : Char), (2 : Nat))].map Prod.fst).Nodup ∧
    ('A', ['0']) ∈ (HuffmanTree.mk (some (Node.leaf 2 'A')) [('A', ['0'])]
      (some (Node.leaf 2 'A'))).code_table ∧
    ([] : List Char).isPrefixOf ['0'] = true ∧
    ([] : List Char) ≠ ['0'] ∧
    (HuffmanTree.mk (some (Node.leaf 2 'A')) [('A', ['0'])]
      (some (Node.leaf 2 'A'))).encode_text ['A'] = .ok ['0'] ∧
    ((HuffmanTree.mk (some (Node.leaf 2 'A')) [('A', ['0'])]
      (some (Node.leaf 2 'A'))).decode_text (['0'] ++ [])).1 = .ok ['A'] ∧
    ((HuffmanTree.mk (some (Node.leaf 2 'A')) [('A', ['0'])]
      (some (Node.leaf 2 'A'))).decode_text []).1 = .ok [] := by
  have h := c10_trailing_partial [('A', 2)] ['A'] _ 'A' ['0'] [] ['0']
    (by decide) (by decide) rfl (by decide) rfl (by decide) rfl
  exact ⟨by decide, by decide, rfl, by decide, rfl, h.1, h.2⟩
